import Mathlib

/-!
Verification of the two algorithmic units of the repository:

* the POSIX-style path module (`normalizeArray`, `trimArray`, `posixSplitPath`,
  `PathOperations.resolve`, `PathOperations.isAbsolute`, `PathOperations.relative`,
  `PathOperations.dirname`), translated from
  `src/frontend/src/utils/improved-markdown/path-operations.ts`;

* the password-based encryption module (`bufferToBase64`, `base64ToBuffer`,
  `deriveKey`, `encrypt`, `decrypt`), translated from
  `src/frontend/src/utils/improved-markdown/crypto.ts`.

JavaScript strings are modelled as Lean `String`s (sequences of Unicode scalar
values); byte buffers (`Uint8Array` / `ArrayBuffer`) as `List Nat` whose
well-formed elements are `< 256`.  Platform primitives that the source calls
(`btoa` / `atob`, `TextEncoder` / `TextDecoder`, and the Web Crypto
`crypto.subtle` operations) are given executable models below; the AES-GCM /
SHA-256 / PBKDF2 primitives are modelled as an idealized authenticated cipher
and deterministic derivation functions with the interface (lengths, error
behaviour, determinism, tag checking) of the real primitives, since their
internals are outside the repository.
-/

/-! ### Path module: helpers translated from the source -/

/-- Model of the JavaScript test `path.charAt(0) === "/"` / `path[0] === "/"`. -/
def headIsSlash (s : String) : Bool := s.data.head? == some '/'

/-- Worker for `jsSplitSlash`: accumulates the current segment (reversed). -/
def jsSplitSlashGo (cur : List Char) : List Char → List String
  | [] => [String.mk cur.reverse]
  | c :: rest =>
    if c = '/' then String.mk cur.reverse :: jsSplitSlashGo [] rest
    else jsSplitSlashGo (c :: cur) rest

/-- Model of the JavaScript `s.split("/")` (so `"".split("/") = [""]`,
`"a//b".split("/") = ["a", "", "b"]`, …). -/
def jsSplitSlash (s : String) : List String := jsSplitSlashGo [] s.data

/-- Model of the JavaScript `arr.join("/")`. -/
def joinSlash : List String → String
  | [] => ""
  | [s] => s
  | s :: rest => s ++ "/" ++ joinSlash rest

/-- One iteration of the `normalizeArray` loop of the source: skip empty and
`"."` parts, pop on `".."` when the last kept part exists and is not `".."`,
otherwise keep the `".."` only when `allowAboveRoot` is set. -/
def normalizeStep (allowAboveRoot : Bool) (res : List String) (p : String) : List String :=
  if p = "" ∨ p = "." then res
  else if p = ".." then
    if res ≠ [] ∧ res.getLast? ≠ some ".." then res.dropLast
    else if allowAboveRoot then res ++ [".."]
    else res
  else res ++ [p]

/-- `normalizeArray(parts, allowAboveRoot)` of the source: the loop over
`parts` with accumulator `res`. -/
def normalizeArray (parts : List String) (allowAboveRoot : Bool) : List String :=
  parts.foldl (normalizeStep allowAboveRoot) []

/-- `trimArray(arr)` of the source: `start` is the first index holding a
truthy (non-empty) string, `end` the last such index, and the result is
`arr.slice(start, end + 1)` — `[]` when every entry is empty. -/
def trimArray (arr : List String) : List String :=
  let start := arr.findIdx (fun s => s != "")
  if start = arr.length then []
  else (arr.take (arr.length - arr.reverse.findIdx (fun s => s != ""))).drop start

/-- The trailing `(?:[/]*)$` of `splitPathRe`: trailing slashes of the path
are not part of any capture group. -/
def dropTrailingSlashes (cs : List Char) : List Char :=
  (cs.reverse.dropWhile (· = '/')).reverse

/-- Split off the final path segment: everything up to and including the last
`'/'` (the `dir` capture of `splitPathRe`, lazy group 2 which must absorb every
`'/'`), and the remainder (the basename, capture group 3). -/
def splitLastSlash (cs : List Char) : List Char × List Char :=
  let r := cs.reverse
  ((r.dropWhile (· ≠ '/')).reverse, (r.takeWhile (· ≠ '/')).reverse)

/-- Can `rem` be matched by the last capture group `(\.[^./]*|)` of
`splitPathRe` (and nothing else up to the end of the basename)?  Either `rem`
is empty, or it is a dot followed by dot-free (and slash-free) text. -/
def isExtRem (rem : List Char) : Bool :=
  match rem with
  | [] => true
  | c :: t => c = '.' && ! t.contains '.'

/-- The lazy `[^/]+?` alternative of `splitPathRe`'s basename group: try the
shortest non-empty prefix first, i.e. scan for the first position whose
remainder is a valid extension group (the empty remainder always is). -/
def extScan : List Char → List Char
  | [] => []
  | c :: r => if isExtRem (c :: r) then c :: r else extScan r

/-- The extension capture (group 4 of `splitPathRe`) of a basename segment,
following the regex's alternation order: first `\.{1,2}` (greedily two dots,
then one), then the lazy `[^/]+?`, then the empty alternative. -/
def segExt (seg : List Char) : List Char :=
  if seg.take 2 = ['.', '.'] ∧ isExtRem (seg.drop 2) then seg.drop 2
  else if seg.take 1 = ['.'] ∧ isExtRem (seg.drop 1) then seg.drop 1
  else
    match seg with
    | [] => []
    | _ :: r => extScan r

/-- `posixSplitPath(filename)` of the source: the capture groups
`[root, dir, basename, ext]` of `splitPathRe` (the regex matches every string,
so the `parts ? parts.slice(1) : []` fallback never yields `[]`). -/
def posixSplitPath (filename : String) : List String :=
  let cs := filename.data
  let root : String := if cs.head? = some '/' then "/" else ""
  let body := if cs.head? = some '/' then cs.tail else cs
  let body' := dropTrailingSlashes body
  let (dirC, baseC) := splitLastSlash body'
  [root, String.mk dirC, String.mk baseC, String.mk (segExt baseC)]

/-! ### The `PathOperations` class -/

/-- The `PathOperations` class of the source: a working directory string. -/
structure PathOperations where
  cwd : String
deriving DecidableEq

/-- The `for (let i = paths.length - 1; i >= -1 && !resolvedAbsolute; i--)`
loop of `PathOperations.resolve`, applied to the visit order
`paths.reverse ++ [cwd]`: skip empty entries, prepend `path + "/"`, and stop
as soon as an entry starting with `'/'` has been prepended.  Returns the
accumulated `resolvedPath` and the final `resolvedAbsolute` flag. -/
def resolveScan : List String → String → String × Bool
  | [], acc => (acc, false)
  | p :: rest, acc =>
    if p = "" then resolveScan rest acc
    else
      let acc2 := p ++ "/" ++ acc
      if headIsSlash p then (acc2, true) else resolveScan rest acc2

/-- `PathOperations.resolve(...paths)` of the source (the variadic argument
list becomes an explicit `List String`). -/
def PathOperations.resolve (po : PathOperations) (paths : List String) : String :=
  let scanned := resolveScan (paths.reverse ++ [po.cwd]) ""
  let norm := joinSlash (normalizeArray (jsSplitSlash scanned.1) (! scanned.2))
  let r := (if scanned.2 then "/" else "") ++ norm
  if r = "" then "." else r

/-- `PathOperations.isAbsolute(path)` of the source. -/
def PathOperations.isAbsolute (_po : PathOperations) (path : String) : Bool :=
  headIsSlash path

/-- The `samePartsLength` loop of `PathOperations.relative`: the first index
at which the two segment lists differ, or the length of the shorter list when
no index below it differs. -/
def firstDiffIdx : List String → List String → Nat
  | a :: as, b :: bs => if a ≠ b then 0 else firstDiffIdx as bs + 1
  | _, _ => 0

/-- `PathOperations.relative(from, to)` of the source (`substring(1)` becomes
dropping the first character, and the `".."`-pushing loop becomes
`List.replicate`). -/
def PathOperations.relative (po : PathOperations) (fromP toP : String) : String :=
  let fromR : String := String.mk (po.resolve [fromP]).data.tail
  let toR : String := String.mk (po.resolve [toP]).data.tail
  let fromParts := trimArray (jsSplitSlash fromR)
  let toParts := trimArray (jsSplitSlash toR)
  let samePartsLength := firstDiffIdx fromParts toParts
  let outputParts :=
    List.replicate (fromParts.length - samePartsLength) ".." ++ toParts.drop samePartsLength
  joinSlash outputParts

/-- `PathOperations.dirname(path)` of the source. -/
def PathOperations.dirname (_po : PathOperations) (path : String) : String :=
  let result := posixSplitPath path
  let root := result.getD 0 ""
  let dir := result.getD 1 ""
  if root = "" ∧ dir = "" then "."
  else
    let dir2 := if dir ≠ "" then String.mk dir.data.dropLast else dir
    root ++ dir2

/-! ### Spec-worded counterparts (§4.1 of the specification)

These definitions follow the specification's prose rather than the source, and
are compared with the source translations in the theorems for C3 and C6. -/

/-- §4.1, normalization of a single segment, following the spec's words:
"drop empty and `.` segments, collapse `..` against the previous kept segment
unless the previous segment is itself `..` or there is nothing to collapse —
in the latter case keep the `..` only if the overall result is not anchored
absolute".  The already-kept segments are held reversed in `acc`. -/
def normalizeSpecStep (allowAboveRoot : Bool) (acc : List String) (p : String) : List String :=
  if p = "" ∨ p = "." then acc
  else if p = ".." then
    match acc with
    | q :: qs =>
      if q ≠ ".." then qs
      else if allowAboveRoot then ".." :: q :: qs
      else q :: qs
    | [] => if allowAboveRoot then [".."] else []
  else p :: acc

/-- §4.1 normalization over the segment list, left to right. -/
def normalizeSpecAux (allowAboveRoot : Bool) (acc : List String) : List String → List String
  | [] => acc.reverse
  | p :: ps => normalizeSpecAux allowAboveRoot (normalizeSpecStep allowAboveRoot acc p) ps

/-- §4.1 normalization, spec-worded entry point. -/
def normalizeSpec (parts : List String) (allowAboveRoot : Bool) : List String :=
  normalizeSpecAux allowAboveRoot [] parts

/-- §4.1 resolution scan, following the spec's words: "scan segments from last
to first; prepend each non-empty segment; stop once an absolute segment is
found or the list (including the implicit working-directory segment) is
exhausted".  The input is the scan order (last argument first, the working
directory last); the result is the list of prepended segments in scan order. -/
def scanSpec : List String → List String
  | [] => []
  | p :: rest =>
    if p = "" then scanSpec rest
    else if headIsSlash p then [p]
    else p :: scanSpec rest

/-- §4.1 `resolve`, spec-worded: scan, accumulate by prepending `segment ++ "/"`,
normalize with `allowAboveRoot` true exactly when no absolute segment was seen,
re-join with `/`, prefix `/` when absolute, default to `.` when empty. -/
def resolveSpec (cwd : String) (paths : List String) : String :=
  let scanned := scanSpec ((cwd :: paths).reverse)
  let resolvedAbsolute :=
    match scanned.getLast? with
    | some p => headIsSlash p
    | none => false
  let resolvedPath := scanned.foldl (fun acc p => p ++ "/" ++ acc) ""
  let norm := joinSlash (normalizeSpec (jsSplitSlash resolvedPath) (! resolvedAbsolute))
  let r := (if resolvedAbsolute then "/" else "") ++ norm
  if r = "" then "." else r

/-- §4.1 `relative`, trimming, spec-worded: "trim leading/trailing empty
segments from each split result". -/
def trimSpec (arr : List String) : List String :=
  ((arr.dropWhile (fun s => s == "")).reverse.dropWhile (fun s => s == "")).reverse

/-- §4.1 `relative`, spec-worded: "the longest common prefix of segments". -/
def commonPrefixLen : List String → List String → Nat
  | a :: as, b :: bs => if a = b then commonPrefixLen as bs + 1 else 0
  | _, _ => 0

/-- §4.1 `relative`, spec-worded: resolve both, strip the leading `/`, split
into segments, trim empty segments, then one `..` per remaining `from` segment
past the longest common prefix followed by the remaining `to` segments. -/
def relativeSpec (po : PathOperations) (fromP toP : String) : String :=
  let fromR : String := String.mk (po.resolve [fromP]).data.tail
  let toR : String := String.mk (po.resolve [toP]).data.tail
  let fromParts := trimSpec (jsSplitSlash fromR)
  let toParts := trimSpec (jsSplitSlash toR)
  let k := commonPrefixLen fromParts toParts
  joinSlash (List.replicate (fromParts.length - k) ".." ++ toParts.drop k)

/-! ### Crypto module: text encoding (model of `TextEncoder` / `TextDecoder`) -/

/-- UTF-8 encoding of a single Unicode scalar value (model of `TextEncoder`). -/
def utf8EncodeChar (c : Nat) : List Nat :=
  if c < 0x80 then [c]
  else if c < 0x800 then [0xC0 + c / 64, 0x80 + c % 64]
  else if c < 0x10000 then
    [0xE0 + c / 4096, 0x80 + c / 64 % 64, 0x80 + c % 64]
  else
    [0xF0 + c / 262144, 0x80 + c / 4096 % 64, 0x80 + c / 64 % 64, 0x80 + c % 64]

/-- Model of `new TextEncoder().encode(s)`: UTF-8 bytes of the string. -/
def utf8Encode (s : String) : List Nat :=
  s.data.flatMap (fun c => utf8EncodeChar c.toNat)

/-- Is `b` a UTF-8 continuation byte? -/
def isCont (b : Nat) : Bool := 0x80 ≤ b && b < 0xC0

/-- One step of the total UTF-8 decoder: given the lead byte `b` and the
remaining input, the Unicode scalar values emitted for this sequence and what
is left of the input.  Valid sequences decode exactly; malformed input (which
no claim depends on) yields U+FFFD replacement characters for the examined
bytes instead of failing. -/
def utf8Step (b : Nat) (rest : List Nat) : List Nat × List Nat :=
  if b < 0x80 then ([b], rest)
  else if b < 0xC0 then ([0xFFFD], rest)
  else if b < 0xE0 then
    match rest with
    | b1 :: r =>
      if isCont b1 then ([(b - 0xC0) * 64 + (b1 - 0x80)], r)
      else ([0xFFFD, 0xFFFD], r)
    | [] => ([0xFFFD], [])
  else if b < 0xF0 then
    match rest with
    | b1 :: b2 :: r =>
      if isCont b1 && isCont b2 then
        ([(b - 0xE0) * 4096 + (b1 - 0x80) * 64 + (b2 - 0x80)], r)
      else ([0xFFFD, 0xFFFD, 0xFFFD], r)
    | [_] => ([0xFFFD, 0xFFFD], [])
    | [] => ([0xFFFD], [])
  else if b < 0xF8 then
    match rest with
    | b1 :: b2 :: b3 :: r =>
      if isCont b1 && isCont b2 && isCont b3 then
        ([(b - 0xF0) * 262144 + (b1 - 0x80) * 4096 + (b2 - 0x80) * 64 + (b3 - 0x80)], r)
      else ([0xFFFD, 0xFFFD, 0xFFFD, 0xFFFD], r)
    | [_, _] => ([0xFFFD, 0xFFFD, 0xFFFD], [])
    | [_] => ([0xFFFD, 0xFFFD], [])
    | [] => ([0xFFFD], [])
  else ([0xFFFD], rest)

/-- The decoder loop, driven by fuel (structural recursion; sufficient fuel is
the input length, since every step consumes at least the lead byte). -/
def utf8DecodeFuel : Nat → List Nat → List Nat
  | 0, _ => []
  | fuel + 1, l =>
    match l with
    | [] => []
    | b :: rest =>
      let s := utf8Step b rest
      s.1 ++ utf8DecodeFuel fuel s.2

/-- Total UTF-8 decoder: run the loop with the input length as fuel. -/
def utf8DecodeTotal (l : List Nat) : List Nat := utf8DecodeFuel l.length l

/-- Model of `new TextDecoder().decode(bytes)`: total, replacement-character
based decoding back to a string. -/
def textDecodeModel (bs : List Nat) : String :=
  String.mk ((utf8DecodeTotal bs).map Char.ofNat)

/-! ### Base64 (models of `btoa` and `atob`) -/

/-- The base64 alphabet: character of a sextet. -/
def b64Char (n : Nat) : Char :=
  if n < 26 then Char.ofNat (65 + n)
  else if n < 52 then Char.ofNat (71 + n)
  else if n < 62 then Char.ofNat (n - 4)
  else if n = 62 then '+'
  else '/'

/-- Inverse of the base64 alphabet; `none` for characters outside it
(note `'='` is outside). -/
def b64CharDecode (c : Char) : Option Nat :=
  let v := c.toNat
  if 65 ≤ v ∧ v ≤ 90 then some (v - 65)
  else if 97 ≤ v ∧ v ≤ 122 then some (v - 71)
  else if 48 ≤ v ∧ v ≤ 57 then some (v + 4)
  else if c = '+' then some 62
  else if c = '/' then some 63
  else none

/-- Base64 encoding of a byte list, with `'='` padding (model of `btoa` applied
to the binary string of the bytes). -/
def b64Encode : List Nat → List Char
  | [] => []
  | [b0] => [b64Char (b0 / 4), b64Char (b0 % 4 * 16), '=', '=']
  | [b0, b1] => [b64Char (b0 / 4), b64Char (b0 % 4 * 16 + b1 / 16), b64Char (b1 % 16 * 4), '=']
  | b0 :: b1 :: b2 :: rest =>
    b64Char (b0 / 4) :: b64Char (b0 % 4 * 16 + b1 / 16) ::
      b64Char (b1 % 16 * 4 + b2 / 64) :: b64Char (b2 % 64) :: b64Encode rest

/-- `bufferToBase64(buffer)` of the source: `btoa(String.fromCharCode(...bytes))`. -/
def bufferToBase64 (bytes : List Nat) : String := String.mk (b64Encode bytes)

/-- ASCII whitespace, stripped by the forgiving-base64 decode of `atob`. -/
def isB64Ws (c : Char) : Bool :=
  c = ' ' ∨ c = '\t' ∨ c = '\n' ∨ Char.ofNat 12 = c ∨ Char.ofNat 13 = c

/-- Forgiving-base64: when the length is a multiple of four, up to two
trailing `'='` are removed. -/
def dropTrailEq (cs : List Char) : List Char :=
  match cs.reverse with
  | '=' :: '=' :: r => r.reverse
  | '=' :: r => r.reverse
  | _ => cs

/-- Per-character base64 decoding of a list; fails on any character outside
the alphabet. -/
def b64DecodeChars : List Char → Option (List Nat)
  | [] => some []
  | c :: r =>
    match b64CharDecode c, b64DecodeChars r with
    | some v, some vs => some (v :: vs)
    | _, _ => none

/-- Reassemble bytes from sextets, discarding the trailing bits of a final
group of two or three sextets (forgiving-base64).  A final group of one
sextet is rejected before this function is reached. -/
def sextetsToBytes : List Nat → List Nat
  | [] => []
  | [_] => []
  | [c0, c1] => [c0 * 4 + c1 / 16]
  | [c0, c1, c2] => [c0 * 4 + c1 / 16, c1 % 16 * 16 + c2 / 4]
  | c0 :: c1 :: c2 :: c3 :: rest =>
    (c0 * 4 + c1 / 16) :: (c1 % 16 * 16 + c2 / 4) :: (c2 % 4 * 64 + c3) :: sextetsToBytes rest

/-- Model of `atob`: the forgiving-base64 decode — strip ASCII whitespace,
strip the padding when the length is a multiple of four, reject a remainder
of one, decode the alphabet, reassemble the bytes.  `none` models the
`InvalidCharacterError` DOMException `atob` throws. -/
def atobModel (s : String) : Option (List Nat) :=
  let cs := s.data.filter (fun c => ! isB64Ws c)
  let cs2 := if cs.length % 4 = 0 then dropTrailEq cs else cs
  if cs2.length % 4 = 1 then none
  else
    match b64DecodeChars cs2 with
    | none => none
    | some sextets => some (sextetsToBytes sextets)

/-- `base64ToBuffer(base64String)` of the source: `atob` then `charCodeAt`
into a byte buffer.  `none` models the propagated `InvalidCharacterError`. -/
def base64ToBuffer (base64String : String) : Option (List Nat) := atobModel base64String

/-! ### Idealized Web Crypto primitives

`crypto.subtle` is a browser platform API, not part of the repository, so its
primitives are modelled: deterministic digest / key-derivation functions built
from a rolling hash, and an idealized AES-GCM (a keystream cipher plus a
16-byte authentication tag that is a deterministic function of key, nonce and
ciphertext, checked on decryption).  The model preserves the interface facts
the source relies on: output lengths, determinism, the exact ciphertext layout
`ciphertext ++ tag`, and failure by `OperationError` exactly when the tag
check fails. -/

/-- Rolling hash over a byte list (building block of the modelled primitives). -/
def rollHash (seed : Nat) (data : List Nat) : Nat :=
  data.foldl (fun h b => (h * 1099511628211 + b + 1) % 2305843009213693951) seed

/-- `n` pseudo-random bytes derived from a seed and a byte list. -/
def bytesOfHash (seed : Nat) (data : List Nat) (n : Nat) : List Nat :=
  (List.range n).map (fun i => rollHash (seed + i * 131) data % 256)

/-- Model of `crypto.subtle.digest("SHA-256", data)`: a deterministic 32-byte
digest of the input. -/
def sha256Model (data : List Nat) : List Nat := bytesOfHash 2 data 32

/-- Model of PBKDF2 (`crypto.subtle.deriveKey` with `{name: "PBKDF2", salt,
iterations, hash: "SHA-256"}`): a deterministic function of password, salt and
iteration count producing `n` key bytes. -/
def pbkdf2Model (password salt : List Nat) (iterations n : Nat) : List Nat :=
  bytesOfHash 3 (password ++ [256] ++ salt ++ [257] ++ [iterations]) n

/-- Model of a `CryptoKey`: the algorithm name and allowed usages recorded by
`importKey` / `deriveKey`, plus the raw key material. -/
structure CryptoKeyModel where
  alg : String
  usages : List String
  bytes : List Nat
deriving DecidableEq

/-- One keystream byte of the idealized AES-GCM at position `i`. -/
def keystreamByte (key : CryptoKeyModel) (iv : List Nat) (i : Nat) : Nat :=
  rollHash 5 (key.bytes ++ [258] ++ iv ++ [259] ++ [i]) % 256

/-- XOR a byte list against the keystream, starting at position `i`
(involutive, as for real AES-GCM's counter mode). -/
def xorKs (key : CryptoKeyModel) (iv : List Nat) : Nat → List Nat → List Nat
  | _, [] => []
  | i, b :: rest => (b ^^^ keystreamByte key iv i) :: xorKs key iv (i + 1) rest

/-- The 16-byte authentication tag of the idealized AES-GCM: a deterministic
function of key, nonce and ciphertext. -/
def gcmTag (key : CryptoKeyModel) (iv : List Nat) (ct : List Nat) : List Nat :=
  bytesOfHash 7 (key.bytes ++ [260] ++ iv ++ [261] ++ ct) 16

/-- Errors of the modelled platform layer: a `DOMException` with its name, or
the repository's own `DecryptionError` class (`src/.../crypto.ts` lines 18-22,
message "error decrypting data"). -/
inductive JsError where
  | domException (name : String)
  | decryptionError
deriving DecidableEq

/-- Model of `crypto.subtle.encrypt({name: "AES-GCM", iv}, key, data)`:
`InvalidAccessError` unless the key is an AES-GCM key usable for encryption,
otherwise the ciphertext followed by the 16-byte tag. -/
def subtleEncryptGCM (key : CryptoKeyModel) (iv data : List Nat) :
    Except JsError (List Nat) :=
  if key.alg = "AES-GCM" ∧ "encrypt" ∈ key.usages then
    let ct := xorKs key iv 0 data
    .ok (ct ++ gcmTag key iv ct)
  else .error (.domException "InvalidAccessError")

/-- Model of `crypto.subtle.decrypt({name: "AES-GCM", iv}, key, data)`:
`InvalidAccessError` unless the key is an AES-GCM key usable for decryption;
`OperationError` when the input is shorter than the tag or the authentication
tag does not match; the plaintext otherwise. -/
def subtleDecryptGCM (key : CryptoKeyModel) (iv data : List Nat) :
    Except JsError (List Nat) :=
  if key.alg = "AES-GCM" ∧ "decrypt" ∈ key.usages then
    if data.length < 16 then .error (.domException "OperationError")
    else
      let n := data.length - 16
      let ct := data.take n
      let tag := data.drop n
      if tag = gcmTag key iv ct then .ok (xorKs key iv 0 ct)
      else .error (.domException "OperationError")
  else .error (.domException "InvalidAccessError")

/-! ### The source's `deriveKey`, `encrypt`, `decrypt` -/

/-- `deriveKey(password)` of the source: the UTF-8 password bytes are imported
as PBKDF2 material, the salt is the SHA-256 digest of those same bytes, and
PBKDF2 with 100000 iterations and SHA-256 derives a 256-bit AES-GCM key with
usages `["encrypt", "decrypt"]`. -/
def deriveKey (password : String) : CryptoKeyModel :=
  let keyData := utf8Encode password
  let salt := sha256Model keyData
  { alg := "AES-GCM"
    usages := ["encrypt", "decrypt"]
    bytes := pbkdf2Model keyData salt 100000 32 }

/-- `encrypt(plaintext, key)` of the source.  The fresh random 12-byte nonce
drawn by `crypto.getRandomValues(new Uint8Array(12))` is made an explicit
argument `iv` (the model of randomness).  The result is
`bufferToBase64(iv ++ encryptedData)`; a platform error (impossible for a
derived key) propagates, since the source has no handler here. -/
def encrypt (plaintext : String) (key : CryptoKeyModel) (iv : List Nat) :
    Except JsError String :=
  let data := utf8Encode plaintext
  match subtleEncryptGCM key iv data with
  | .error e => .error e
  | .ok encryptedData => .ok (bufferToBase64 (iv ++ encryptedData))

/-- `decrypt(ciphertext, key)` of the source: decode the base64 input (an
`InvalidCharacterError` from `atob` propagates — it is raised outside the
`try`), take the first 12 bytes as the nonce and the rest as ciphertext+tag,
attempt authenticated decryption, map an `OperationError` DOMException to the
repository's `DecryptionError`, rethrow every other error unchanged, and
decode the plaintext bytes as UTF-8. -/
def decrypt (ciphertext : String) (key : CryptoKeyModel) : Except JsError String :=
  match base64ToBuffer ciphertext with
  | none => .error (.domException "InvalidCharacterError")
  | some encryptedResult =>
    let iv := encryptedResult.take 12
    let encryptedData := encryptedResult.drop 12
    match subtleDecryptGCM key iv encryptedData with
    | .error e =>
      if e = .domException "OperationError" then .error .decryptionError
      else .error e
    | .ok data => .ok (textDecodeModel data)

deriving instance DecidableEq for Except

/-- The alphabet characters of `b64Encode`, without the padding. -/
def b64SextetChars : List Nat → List Char
  | [] => []
  | [b0] => [b64Char (b0 / 4), b64Char (b0 % 4 * 16)]
  | [b0, b1] => [b64Char (b0 / 4), b64Char (b0 % 4 * 16 + b1 / 16), b64Char (b1 % 16 * 4)]
  | b0 :: b1 :: b2 :: rest =>
    b64Char (b0 / 4) :: b64Char (b0 % 4 * 16 + b1 / 16) ::
      b64Char (b1 % 16 * 4 + b2 / 64) :: b64Char (b2 % 64) :: b64SextetChars rest

/-- The padding of `b64Encode`, depending only on the length modulo three. -/
def b64Pad : List Nat → List Char
  | [] => []
  | [_] => ['=', '=']
  | [_, _] => ['=']
  | _ :: _ :: _ :: rest => b64Pad rest

/-- The sextet values of `b64Encode`. -/
def b64Sextets : List Nat → List Nat
  | [] => []
  | [b0] => [b0 / 4, b0 % 4 * 16]
  | [b0, b1] => [b0 / 4, b0 % 4 * 16 + b1 / 16, b1 % 16 * 4]
  | b0 :: b1 :: b2 :: rest =>
    (b0 / 4) :: (b0 % 4 * 16 + b1 / 16) :: (b1 % 16 * 4 + b2 / 64) :: (b2 % 64)
      :: b64Sextets rest

/-! ### Executable sanity checks -/

example : (PathOperations.mk "/").resolve ["/a/b", "../c"] = "/a/c" := by decide
example : (PathOperations.mk "").resolve ["a", "b", "../c"] = "a/c" := by decide
example : (PathOperations.mk "").resolve [] = "." := by decide
example : (PathOperations.mk "/").resolve [] = "/" := by decide
example : (PathOperations.mk "/").relative "/a/b" "/a/c/d" = "../c/d" := by decide
example : (PathOperations.mk "/").relative "/a/b" "/a/b" = "" := by decide
example : (PathOperations.mk "/").dirname "/a/b/c.md" = "/a/b" := by decide
example : (PathOperations.mk "/").dirname "/x" = "/" := by decide
example : (PathOperations.mk "/").dirname "foo" = "." := by decide
example : (PathOperations.mk "/").dirname "/" = "/" := by decide
example : (PathOperations.mk "/").dirname "" = "." := by decide
example : (PathOperations.mk "/").dirname "a/" = "." := by decide
example : (PathOperations.mk "/").dirname "/a//b" = "/a/" := by decide
example : posixSplitPath "/a/b/c.md" = ["/", "a/b/", "c.md", ".md"] := by decide
example : posixSplitPath ".md" = ["", "", ".md", ""] := by decide
example : posixSplitPath "a.b.c" = ["", "", "a.b.c", ".c"] := by decide
example : posixSplitPath "..b" = ["", "", "..b", ".b"] := by decide
example : posixSplitPath ".." = ["", "", "..", ""] := by decide

example : textDecodeModel (utf8Encode "héllo…𝄞") = "héllo…𝄞" := by decide

example : atobModel (bufferToBase64 [0, 255, 17, 34, 51]) = some [0, 255, 17, 34, 51] := by decide
example : atobModel (bufferToBase64 []) = some [] := by decide
example : atobModel (bufferToBase64 [1]) = some [1] := by decide
example : atobModel (bufferToBase64 [1, 2]) = some [1, 2] := by decide
example : bufferToBase64 [77, 97, 110] = "TWFu" := by decide
example : bufferToBase64 [77, 97] = "TWE=" := by decide
example : atobModel "!!!!" = none := by decide
example : atobModel "abc" = some [105, 183] := by decide

example :
    decrypt (bufferToBase64 [1, 2, 3]) (deriveKey "pw") = .error .decryptionError := by
  decide
example : decrypt "!!!" (deriveKey "pw") = .error (.domException "InvalidCharacterError") := by
  decide

/-! ### Lemmas: UTF-8 round trip -/

theorem char_toNat_lt (c : Char) : c.toNat < 1114112 := by
  rcases c.valid with h | ⟨h1, h2⟩ <;> simp [Char.toNat] <;> omega

theorem utf8EncodeChar_lt_256 (c : Nat) (hc : c < 1114112) :
    ∀ b ∈ utf8EncodeChar c, b < 256 := by
  unfold utf8EncodeChar
  split_ifs with h1 h2 h3 <;> intro b hb <;> simp at hb <;> omega

theorem utf8Step_len (b : Nat) (rest : List Nat) :
    (utf8Step b rest).2.length ≤ rest.length := by
  rcases rest with _ | ⟨b1, rest⟩
  · simp only [utf8Step]; split_ifs <;> simp
  rcases rest with _ | ⟨b2, rest⟩
  · simp only [utf8Step]; split_ifs <;> simp
  rcases rest with _ | ⟨b3, rest⟩
  · simp only [utf8Step]; split_ifs <;> simp
  · simp only [utf8Step]; split_ifs <;> (try simp) <;> omega

theorem utf8DecodeFuel_congr :
    ∀ f1 f2 l, l.length ≤ f1 → l.length ≤ f2 → utf8DecodeFuel f1 l = utf8DecodeFuel f2 l := by
  intro f1
  induction f1 with
  | zero =>
    intro f2 l h1 h2
    have hl : l = [] := by cases l <;> simp_all
    subst hl
    cases f2 <;> rfl
  | succ f ih =>
    intro f2 l h1 h2
    cases l with
    | nil => cases f2 <;> rfl
    | cons b rest =>
      cases f2 with
      | zero => simp at h2
      | succ g =>
        have hr1 : rest.length ≤ f := by simp at h1; omega
        have hr2 : rest.length ≤ g := by simp at h2; omega
        simp only [utf8DecodeFuel]
        rw [ih g _ (le_trans (utf8Step_len b rest) hr1) (le_trans (utf8Step_len b rest) hr2)]

theorem utf8DecodeTotal_cons (b : Nat) (rest : List Nat) :
    utf8DecodeTotal (b :: rest) =
      (utf8Step b rest).1 ++ utf8DecodeTotal (utf8Step b rest).2 := by
  unfold utf8DecodeTotal
  simp only [List.length_cons, utf8DecodeFuel]
  rw [utf8DecodeFuel_congr _ _ _ (utf8Step_len b rest) le_rfl]

theorem utf8DecodeTotal_encodeChar (c : Nat) (hc : c < 1114112) (rest : List Nat) :
    utf8DecodeTotal (utf8EncodeChar c ++ rest) = c :: utf8DecodeTotal rest := by
  unfold utf8EncodeChar
  by_cases h1 : c < 128
  · rw [if_pos h1, List.singleton_append, utf8DecodeTotal_cons]
    have hs : utf8Step c rest = ([c], rest) := by
      simp only [utf8Step]; rw [if_pos h1]
    rw [hs]; rfl
  by_cases h2 : c < 2048
  · rw [if_neg h1, if_pos h2, List.cons_append, List.singleton_append, utf8DecodeTotal_cons]
    have e1 : ¬ (192 + c / 64 < 128) := by omega
    have e2 : ¬ (192 + c / 64 < 192) := by omega
    have e3 : 192 + c / 64 < 224 := by omega
    have e4 : isCont (128 + c % 64) = true := by simp [isCont]; omega
    have hs : utf8Step (192 + c / 64) ((128 + c % 64) :: rest) = ([c], rest) := by
      simp only [utf8Step]
      rw [if_neg e1, if_neg e2, if_pos e3, if_pos e4]
      have hv : (192 + c / 64 - 192) * 64 + (128 + c % 64 - 128) = c := by omega
      rw [hv]
    rw [hs]; rfl
  by_cases h3 : c < 65536
  · rw [if_neg h1, if_neg h2, if_pos h3, List.cons_append, List.cons_append,
      List.singleton_append, utf8DecodeTotal_cons]
    have e1 : ¬ (224 + c / 4096 < 128) := by omega
    have e2 : ¬ (224 + c / 4096 < 192) := by omega
    have e3 : ¬ (224 + c / 4096 < 224) := by omega
    have e4 : 224 + c / 4096 < 240 := by omega
    have e5 : isCont (128 + c / 64 % 64) = true := by simp [isCont]; omega
    have e6 : isCont (128 + c % 64) = true := by simp [isCont]; omega
    have e7 : (isCont (128 + c / 64 % 64) && isCont (128 + c % 64)) = true := by
      simp [e5, e6]
    have hs : utf8Step (224 + c / 4096) ((128 + c / 64 % 64) :: (128 + c % 64) :: rest) =
        ([c], rest) := by
      simp only [utf8Step]
      rw [if_neg e1, if_neg e2, if_neg e3, if_pos e4, if_pos e7]
      have hv : (224 + c / 4096 - 224) * 4096 + (128 + c / 64 % 64 - 128) * 64 +
          (128 + c % 64 - 128) = c := by omega
      rw [hv]
    rw [hs]; rfl
  · rw [if_neg h1, if_neg h2, if_neg h3, List.cons_append, List.cons_append,
      List.cons_append, List.singleton_append, utf8DecodeTotal_cons]
    have e1 : ¬ (240 + c / 262144 < 128) := by omega
    have e2 : ¬ (240 + c / 262144 < 192) := by omega
    have e3 : ¬ (240 + c / 262144 < 224) := by omega
    have e4 : ¬ (240 + c / 262144 < 240) := by omega
    have e5 : 240 + c / 262144 < 248 := by omega
    have e6 : isCont (128 + c / 4096 % 64) = true := by simp [isCont]; omega
    have e7 : isCont (128 + c / 64 % 64) = true := by simp [isCont]; omega
    have e8 : isCont (128 + c % 64) = true := by simp [isCont]; omega
    have e9 : (isCont (128 + c / 4096 % 64) && isCont (128 + c / 64 % 64) &&
        isCont (128 + c % 64)) = true := by simp [e6, e7, e8]
    have hs : utf8Step (240 + c / 262144)
        ((128 + c / 4096 % 64) :: (128 + c / 64 % 64) :: (128 + c % 64) :: rest) =
        ([c], rest) := by
      simp only [utf8Step]
      rw [if_neg e1, if_neg e2, if_neg e3, if_neg e4, if_pos e5, if_pos e9]
      have hv : (240 + c / 262144 - 240) * 262144 + (128 + c / 4096 % 64 - 128) * 4096 +
          (128 + c / 64 % 64 - 128) * 64 + (128 + c % 64 - 128) = c := by omega
      rw [hv]
    rw [hs]; rfl

theorem utf8DecodeTotal_utf8Encode (l : List Char) :
    utf8DecodeTotal (l.flatMap (fun c => utf8EncodeChar c.toNat)) = l.map Char.toNat := by
  induction l with
  | nil => rfl
  | cons c cs ih =>
    simp only [List.flatMap_cons, List.map_cons]
    rw [utf8DecodeTotal_encodeChar c.toNat (char_toNat_lt c), ih]

theorem textDecodeModel_utf8Encode (s : String) : textDecodeModel (utf8Encode s) = s := by
  unfold textDecodeModel utf8Encode
  rw [utf8DecodeTotal_utf8Encode]
  rw [List.map_map]
  have : (Char.ofNat ∘ Char.toNat) = id := by
    funext c
    simp [Char.ofNat_toNat]
  rw [this, List.map_id]

theorem utf8Encode_lt_256 (s : String) : ∀ b ∈ utf8Encode s, b < 256 := by
  unfold utf8Encode
  intro b hb
  simp only [List.mem_flatMap] at hb
  obtain ⟨c, _, hbc⟩ := hb
  exact utf8EncodeChar_lt_256 c.toNat (char_toNat_lt c) b hbc

/-! ### Lemmas: base64 round trip -/

/-- Induction following the three-byte chunking of `b64Encode`. -/
theorem chunk3Induction (P : List Nat → Prop) (h0 : P []) (h1 : ∀ b, P [b])
    (h2 : ∀ b c, P [b, c])
    (h3 : ∀ b c d rest, P rest → P (b :: c :: d :: rest)) :
    ∀ l, P l
  | [] => h0
  | [b] => h1 b
  | [b, c] => h2 b c
  | b :: c :: d :: rest => h3 b c d rest (chunk3Induction P h0 h1 h2 h3 rest)

theorem b64Char_ne_eq : ∀ n, n < 64 → b64Char n ≠ '=' := by decide

theorem b64Char_not_ws : ∀ n, n < 64 → isB64Ws (b64Char n) = false := by decide

theorem b64CharDecode_b64Char : ∀ n, n < 64 → b64CharDecode (b64Char n) = some n := by decide

theorem b64Encode_eq_chars_pad :
    ∀ bs, b64Encode bs = b64SextetChars bs ++ b64Pad bs := by
  refine chunk3Induction _ rfl (fun b => rfl) (fun b c => rfl) ?_
  intro b c d rest ih
  simp only [b64Encode, b64SextetChars, b64Pad, ih, List.cons_append, List.append_assoc]

theorem mem_b64SextetChars :
    ∀ bs, (∀ b ∈ bs, b < 256) → ∀ c ∈ b64SextetChars bs, ∃ n, n < 64 ∧ c = b64Char n := by
  refine chunk3Induction
    (fun bs => (∀ b ∈ bs, b < 256) → ∀ c ∈ b64SextetChars bs, ∃ n, n < 64 ∧ c = b64Char n)
    ?_ ?_ ?_ ?_
  · intro _ c hc; simp [b64SextetChars] at hc
  · intro b hb c hc
    have hb0 : b < 256 := hb b (by simp)
    simp only [b64SextetChars, List.mem_cons, List.mem_singleton] at hc
    rcases hc with h | h | h
    · exact ⟨b / 4, by omega, h⟩
    · exact ⟨b % 4 * 16, by omega, h⟩
    · simp at h
  · intro b c hb d hd
    have hb0 : b < 256 := hb b (by simp)
    have hb1 : c < 256 := hb c (by simp)
    simp only [b64SextetChars, List.mem_cons, List.mem_singleton] at hd
    rcases hd with h | h | h | h
    · exact ⟨b / 4, by omega, h⟩
    · exact ⟨b % 4 * 16 + c / 16, by omega, h⟩
    · exact ⟨c % 16 * 4, by omega, h⟩
    · simp at h
  · intro b c d rest ih hb e he
    have hb0 : b < 256 := hb b (by simp)
    have hb1 : c < 256 := hb c (by simp)
    have hb2 : d < 256 := hb d (by simp)
    simp only [b64SextetChars, List.mem_cons] at he
    rcases he with h | h | h | h | h
    · exact ⟨b / 4, by omega, h⟩
    · exact ⟨b % 4 * 16 + c / 16, by omega, h⟩
    · exact ⟨c % 16 * 4 + d / 64, by omega, h⟩
    · exact ⟨d % 64, by omega, h⟩
    · exact ih (fun x hx => hb x (by simp [hx])) e h

theorem mem_b64Pad : ∀ bs, ∀ c ∈ b64Pad bs, c = '=' := by
  refine chunk3Induction (fun bs => ∀ c ∈ b64Pad bs, c = '=') ?_ ?_ ?_ ?_
  · intro c hc; simp [b64Pad] at hc
  · intro b c hc; simp only [b64Pad, List.mem_cons, List.mem_singleton] at hc
    rcases hc with h | h | h <;> simp_all
  · intro b c d hd; simp only [b64Pad, List.mem_singleton] at hd; exact hd
  · intro b c d rest ih e he; exact ih e he

theorem b64Encode_filter_ws (bs : List Nat) (hb : ∀ b ∈ bs, b < 256) :
    (b64Encode bs).filter (fun c => ! isB64Ws c) = b64Encode bs := by
  rw [List.filter_eq_self]
  intro a ha
  rw [b64Encode_eq_chars_pad] at ha
  rcases List.mem_append.mp ha with h | h
  · obtain ⟨n, hn, rfl⟩ := mem_b64SextetChars bs hb a h
    simp [b64Char_not_ws n hn]
  · rw [mem_b64Pad bs a h]
    decide

theorem b64Encode_length_mod4 : ∀ bs, (b64Encode bs).length % 4 = 0 := by
  refine chunk3Induction _ rfl (fun b => by simp [b64Encode]) (fun b c => by simp [b64Encode]) ?_
  intro b c d rest ih
  simp only [b64Encode, List.length_cons]
  omega

theorem dropTrailEq_no_eq (xs : List Char) (h : ∀ c ∈ xs, c ≠ '=') :
    dropTrailEq xs = xs := by
  unfold dropTrailEq
  split
  · next r heq =>
    exfalso
    have : '=' ∈ xs := by
      have : '=' ∈ xs.reverse := by rw [heq]; simp
      simpa using this
    exact h '=' this rfl
  · next r heq =>
    exfalso
    have : '=' ∈ xs := by
      have : '=' ∈ xs.reverse := by rw [heq]; simp
      simpa using this
    exact h '=' this rfl
  · rfl

theorem dropTrailEq_append_encode :
    ∀ bs xs, (∀ b ∈ bs, b < 256) → (∀ c ∈ xs, c ≠ '=') →
      dropTrailEq (xs ++ b64Encode bs) = xs ++ b64SextetChars bs := by
  refine chunk3Induction
    (fun bs => ∀ xs, (∀ b ∈ bs, b < 256) → (∀ c ∈ xs, c ≠ '=') →
      dropTrailEq (xs ++ b64Encode bs) = xs ++ b64SextetChars bs) ?_ ?_ ?_ ?_
  · intro xs _ hx
    simp only [b64Encode, b64SextetChars, List.append_nil]
    exact dropTrailEq_no_eq xs hx
  · intro b xs _ _
    show dropTrailEq (xs ++ [b64Char (b / 4), b64Char (b % 4 * 16), '=', '=']) = _
    unfold dropTrailEq
    have hrev : (xs ++ [b64Char (b / 4), b64Char (b % 4 * 16), '=', '=']).reverse =
        '=' :: '=' :: (b64Char (b % 4 * 16) :: b64Char (b / 4) :: xs.reverse) := by
      simp
    rw [hrev]
    simp [b64SextetChars]
  · intro b c xs hb hx
    have hc : c < 256 := hb c (by simp)
    have hne : b64Char (c % 16 * 4) ≠ '=' := b64Char_ne_eq _ (by omega)
    show dropTrailEq
        (xs ++ [b64Char (b / 4), b64Char (b % 4 * 16 + c / 16), b64Char (c % 16 * 4), '=']) = _
    unfold dropTrailEq
    have hrev : (xs ++ [b64Char (b / 4), b64Char (b % 4 * 16 + c / 16),
        b64Char (c % 16 * 4), '=']).reverse =
        '=' :: (b64Char (c % 16 * 4) :: b64Char (b % 4 * 16 + c / 16)
          :: b64Char (b / 4) :: xs.reverse) := by
      simp
    rw [hrev]
    split
    · next r heq =>
      exfalso
      simp only [List.cons.injEq, true_and] at heq
      exact hne heq.1
    · next r heq =>
      simp only [List.cons.injEq, true_and] at heq
      rw [← heq]
      simp [b64SextetChars]
    · next hne1 hne2 =>
      exact absurd rfl (hne2 (b64Char (c % 16 * 4) :: b64Char (b % 4 * 16 + c / 16)
        :: b64Char (b / 4) :: xs.reverse))
  · intro b c d rest ih xs hb hx
    have hb0 : b < 256 := hb b (by simp)
    have hb1 : c < 256 := hb c (by simp)
    have hb2 : d < 256 := hb d (by simp)
    have step : xs ++ b64Encode (b :: c :: d :: rest) =
        (xs ++ [b64Char (b / 4), b64Char (b % 4 * 16 + c / 16),
          b64Char (c % 16 * 4 + d / 64), b64Char (d % 64)]) ++ b64Encode rest := by
      simp [b64Encode]
    rw [step, ih _ (fun x hxm => hb x (by simp [hxm]))]
    · simp [b64SextetChars]
    · intro e he
      rcases List.mem_append.mp he with h | h
      · exact hx e h
      · simp only [List.mem_cons, List.mem_singleton] at h
        rcases h with h | h | h | h | h
        · exact h ▸ b64Char_ne_eq _ (by omega)
        · exact h ▸ b64Char_ne_eq _ (by omega)
        · exact h ▸ b64Char_ne_eq _ (by omega)
        · exact h ▸ b64Char_ne_eq _ (by omega)
        · simp at h

theorem dropTrailEq_b64Encode (bs : List Nat) (hb : ∀ b ∈ bs, b < 256) :
    dropTrailEq (b64Encode bs) = b64SextetChars bs := by
  have := dropTrailEq_append_encode bs [] hb (by simp)
  simpa using this

theorem b64DecodeChars_sextetChars :
    ∀ bs, (∀ b ∈ bs, b < 256) → b64DecodeChars (b64SextetChars bs) = some (b64Sextets bs) := by
  refine chunk3Induction
    (fun bs => (∀ b ∈ bs, b < 256) →
      b64DecodeChars (b64SextetChars bs) = some (b64Sextets bs)) ?_ ?_ ?_ ?_
  · intro _; rfl
  · intro b hb
    have h0 : b < 256 := hb b (by simp)
    simp only [b64SextetChars, b64DecodeChars, b64Sextets]
    rw [b64CharDecode_b64Char _ (by omega), b64CharDecode_b64Char _ (by omega)]
  · intro b c hb
    have h0 : b < 256 := hb b (by simp)
    have h1 : c < 256 := hb c (by simp)
    simp only [b64SextetChars, b64DecodeChars, b64Sextets]
    rw [b64CharDecode_b64Char _ (by omega), b64CharDecode_b64Char _ (by omega),
      b64CharDecode_b64Char _ (by omega)]
  · intro b c d rest ih hb
    have h0 : b < 256 := hb b (by simp)
    have h1 : c < 256 := hb c (by simp)
    have h2 : d < 256 := hb d (by simp)
    have ihr := ih (fun x hx => hb x (by simp [hx]))
    simp only [b64SextetChars, b64DecodeChars, b64Sextets]
    rw [b64CharDecode_b64Char _ (by omega), b64CharDecode_b64Char _ (by omega),
      b64CharDecode_b64Char _ (by omega), b64CharDecode_b64Char _ (by omega), ihr]

theorem sextetsToBytes_b64Sextets :
    ∀ bs, (∀ b ∈ bs, b < 256) → sextetsToBytes (b64Sextets bs) = bs := by
  refine chunk3Induction
    (fun bs => (∀ b ∈ bs, b < 256) → sextetsToBytes (b64Sextets bs) = bs) ?_ ?_ ?_ ?_
  · intro _; rfl
  · intro b hb
    have h0 : b < 256 := hb b (by simp)
    simp only [b64Sextets, sextetsToBytes, List.cons.injEq, and_true]
    omega
  · intro b c hb
    have h0 : b < 256 := hb b (by simp)
    have h1 : c < 256 := hb c (by simp)
    simp only [b64Sextets, sextetsToBytes, List.cons.injEq, and_true]
    constructor <;> omega
  · intro b c d rest ih hb
    have h0 : b < 256 := hb b (by simp)
    have h1 : c < 256 := hb c (by simp)
    have h2 : d < 256 := hb d (by simp)
    have ihr := ih (fun x hx => hb x (by simp [hx]))
    cases hrest : b64Sextets rest with
    | nil =>
      simp only [b64Sextets, hrest, sextetsToBytes, List.cons.injEq]
      rw [hrest] at ihr
      refine ⟨by omega, by omega, by omega, ihr⟩
    | cons s ss =>
      simp only [b64Sextets, hrest, sextetsToBytes, List.cons.injEq]
      rw [hrest] at ihr
      refine ⟨by omega, by omega, by omega, ihr⟩

theorem b64SextetChars_length_mod4 : ∀ bs, (b64SextetChars bs).length % 4 ≠ 1 := by
  refine chunk3Induction _ (by simp [b64SextetChars]) (fun b => by simp [b64SextetChars])
    (fun b c => by simp [b64SextetChars]) ?_
  intro b c d rest ih
  simp only [b64SextetChars, List.length_cons]
  omega

/-- The base64 round trip: `atob(btoa(bytes))` recovers the bytes. -/
theorem atobModel_bufferToBase64 (bs : List Nat) (hb : ∀ b ∈ bs, b < 256) :
    atobModel (bufferToBase64 bs) = some bs := by
  unfold bufferToBase64 atobModel
  show (let cs := (b64Encode bs).filter (fun c => ! isB64Ws c)
        let cs2 := if cs.length % 4 = 0 then dropTrailEq cs else cs
        if cs2.length % 4 = 1 then none
        else
          match b64DecodeChars cs2 with
          | none => none
          | some sextets => some (sextetsToBytes sextets)) = some bs
  simp only [b64Encode_filter_ws bs hb, b64Encode_length_mod4 bs, reduceIte,
    dropTrailEq_b64Encode bs hb]
  rw [if_neg (b64SextetChars_length_mod4 bs), b64DecodeChars_sextetChars bs hb]
  show some (sextetsToBytes (b64Sextets bs)) = some bs
  rw [sextetsToBytes_b64Sextets bs hb]

/-! ### Lemmas: the idealized AES-GCM and the encrypt/decrypt round trip -/

theorem xorKs_length (key : CryptoKeyModel) (iv : List Nat) :
    ∀ i data, (xorKs key iv i data).length = data.length := by
  intro i data
  induction data generalizing i with
  | nil => rfl
  | cons b rest ih => simp [xorKs, ih]

theorem xorKs_xorKs (key : CryptoKeyModel) (iv : List Nat) :
    ∀ i data, xorKs key iv i (xorKs key iv i data) = data := by
  intro i data
  induction data generalizing i with
  | nil => rfl
  | cons b rest ih => simp [xorKs, ih, Nat.xor_cancel_right]

theorem xorKs_lt_256 (key : CryptoKeyModel) (iv : List Nat) :
    ∀ i data, (∀ b ∈ data, b < 256) → ∀ b ∈ xorKs key iv i data, b < 256 := by
  intro i data
  induction data generalizing i with
  | nil => intro _ b hb; simp [xorKs] at hb
  | cons x rest ih =>
    intro hd b hb
    simp only [xorKs, List.mem_cons] at hb
    rcases hb with h | h
    · subst h
      have hx : x < 2 ^ 8 := hd x (by simp)
      have hk : keystreamByte key iv i < 2 ^ 8 := Nat.mod_lt _ (by omega)
      exact Nat.xor_lt_two_pow hx hk
    · exact ih (i + 1) (fun y hy => hd y (by simp [hy])) b h

theorem bytesOfHash_length (seed : Nat) (data : List Nat) (n : Nat) :
    (bytesOfHash seed data n).length = n := by
  simp [bytesOfHash]

theorem mem_bytesOfHash_lt (seed : Nat) (data : List Nat) (n : Nat) :
    ∀ b ∈ bytesOfHash seed data n, b < 256 := by
  intro b hb
  simp only [bytesOfHash, List.mem_map] at hb
  obtain ⟨i, _, rfl⟩ := hb
  exact Nat.mod_lt _ (by omega)

theorem subtleEncryptGCM_ok (key : CryptoKeyModel) (iv data : List Nat)
    (halg : key.alg = "AES-GCM") (henc : "encrypt" ∈ key.usages) :
    subtleEncryptGCM key iv data =
      .ok (xorKs key iv 0 data ++ gcmTag key iv (xorKs key iv 0 data)) := by
  unfold subtleEncryptGCM
  rw [if_pos ⟨halg, henc⟩]

theorem subtleDecryptGCM_encrypted (key : CryptoKeyModel) (iv data : List Nat)
    (halg : key.alg = "AES-GCM") (hdec : "decrypt" ∈ key.usages) :
    subtleDecryptGCM key iv (xorKs key iv 0 data ++ gcmTag key iv (xorKs key iv 0 data)) =
      .ok data := by
  unfold subtleDecryptGCM
  rw [if_pos ⟨halg, hdec⟩]
  have hlen : (xorKs key iv 0 data ++ gcmTag key iv (xorKs key iv 0 data)).length =
      (xorKs key iv 0 data).length + 16 := by
    rw [List.length_append, gcmTag, bytesOfHash_length]
  rw [if_neg (by omega)]
  have hn : (xorKs key iv 0 data ++ gcmTag key iv (xorKs key iv 0 data)).length - 16 =
      (xorKs key iv 0 data).length := by omega
  simp only [hn, List.take_left, List.drop_left, if_true]
  rw [xorKs_xorKs]

theorem payload_bounds (s : String) (key : CryptoKeyModel) (iv : List Nat)
    (hbiv : ∀ b ∈ iv, b < 256) :
    ∀ b ∈ iv ++ (xorKs key iv 0 (utf8Encode s) ++
      gcmTag key iv (xorKs key iv 0 (utf8Encode s))), b < 256 := by
  intro b hb
  rcases List.mem_append.mp hb with h | h
  · exact hbiv b h
  rcases List.mem_append.mp h with h | h
  · exact xorKs_lt_256 key iv 0 (utf8Encode s) (utf8Encode_lt_256 s) b h
  · exact mem_bytesOfHash_lt _ _ _ b h

/-- The full round trip of the source's `encrypt` and `decrypt` for a usable
AES-GCM key and a well-formed 12-byte nonce. -/
theorem encrypt_decrypt_ok (s : String) (key : CryptoKeyModel) (iv : List Nat)
    (halg : key.alg = "AES-GCM") (henc : "encrypt" ∈ key.usages)
    (hdec : "decrypt" ∈ key.usages) (h12 : iv.length = 12) (hbiv : ∀ b ∈ iv, b < 256) :
    encrypt s key iv =
      .ok (bufferToBase64 (iv ++ (xorKs key iv 0 (utf8Encode s) ++
        gcmTag key iv (xorKs key iv 0 (utf8Encode s))))) ∧
    decrypt (bufferToBase64 (iv ++ (xorKs key iv 0 (utf8Encode s) ++
        gcmTag key iv (xorKs key iv 0 (utf8Encode s))))) key = .ok s := by
  have hball := payload_bounds s key iv hbiv
  constructor
  · unfold encrypt
    simp only [subtleEncryptGCM_ok key iv (utf8Encode s) halg henc]
  · unfold decrypt base64ToBuffer
    simp only [atobModel_bufferToBase64 _ hball]
    rw [← h12]
    simp only [List.take_left, List.drop_left]
    simp only [subtleDecryptGCM_encrypted key iv (utf8Encode s) halg hdec]
    rw [textDecodeModel_utf8Encode]

theorem bufferToBase64_inj (l1 l2 : List Nat) (hb1 : ∀ b ∈ l1, b < 256)
    (hb2 : ∀ b ∈ l2, b < 256) (h : bufferToBase64 l1 = bufferToBase64 l2) : l1 = l2 := by
  have h1 := atobModel_bufferToBase64 l1 hb1
  rw [h, atobModel_bufferToBase64 l2 hb2] at h1
  exact (Option.some.injEq _ _).mp h1.symm

theorem decrypt_none (ct : String) (key : CryptoKeyModel)
    (h : base64ToBuffer ct = none) :
    decrypt ct key = .error (.domException "InvalidCharacterError") := by
  unfold decrypt
  rw [h]

theorem decrypt_parse (ct : String) (key : CryptoKeyModel) (bs : List Nat)
    (h : base64ToBuffer ct = some bs) :
    decrypt ct key =
      match subtleDecryptGCM key (bs.take 12) (bs.drop 12) with
      | .error e =>
        if e = .domException "OperationError" then .error .decryptionError
        else .error e
      | .ok d => .ok (textDecodeModel d) := by
  unfold decrypt
  rw [h]

theorem subtleDecryptGCM_error_shape (key : CryptoKeyModel) (iv data : List Nat) (e : JsError)
    (h : subtleDecryptGCM key iv data = .error e) : ∃ name, e = .domException name := by
  simp only [subtleDecryptGCM] at h
  split_ifs at h <;>
    first
      | exact ⟨"OperationError", h.symm⟩
      | exact ⟨"InvalidAccessError", h.symm⟩
      | (cases h; exact ⟨_, rfl⟩)

/-! ### Claims about the crypto module -/

/-- C1: for every plaintext string and every password, decrypting the result
of encrypting the plaintext under the key derived from the password, using the
key derived (again) from the same password, returns the plaintext — for any
well-formed value of the random 12-byte nonce that `encrypt` draws. -/
theorem C1_encrypt_decrypt_roundTrip (s p : String) (iv : List Nat)
    (h12 : iv.length = 12) (hbiv : ∀ b ∈ iv, b < 256) :
    ∃ ct, encrypt s (deriveKey p) iv = .ok ct ∧ decrypt ct (deriveKey p) = .ok s := by
  obtain ⟨he, hd⟩ := encrypt_decrypt_ok s (deriveKey p) iv rfl
    (by simp [deriveKey]) (by simp [deriveKey]) h12 hbiv
  exact ⟨_, he, hd⟩

/-- C1 witness: the round trip at the concrete plaintext "secret", password
"pw" and nonce `[0, …, 11]`. -/
theorem C1_encrypt_decrypt_roundTrip_witness :
    ∃ ct, encrypt "secret" (deriveKey "pw") (List.range 12) = .ok ct ∧
      decrypt ct (deriveKey "pw") = .ok "secret" :=
  C1_encrypt_decrypt_roundTrip "secret" "pw" (List.range 12) (by decide) (by decide)

/-- C2: `decrypt` yields the recoverable `DecryptionError` exactly when the
authenticated decryption primitive fails with `OperationError` (its tag
check), and never the plaintext in that case; a malformed-base64 input fails
with the propagated `InvalidCharacterError`; any other `DOMException` from the
primitive propagates unchanged; and a successful primitive decryption yields
the decoded plaintext. -/
theorem C2_decrypt_error_taxonomy (ct : String) (key : CryptoKeyModel) :
    (decrypt ct key = .error .decryptionError ↔
      ∃ bs, base64ToBuffer ct = some bs ∧
        subtleDecryptGCM key (bs.take 12) (bs.drop 12) =
          .error (.domException "OperationError")) ∧
    (base64ToBuffer ct = none →
      decrypt ct key = .error (.domException "InvalidCharacterError")) ∧
    (∀ bs name, base64ToBuffer ct = some bs →
      subtleDecryptGCM key (bs.take 12) (bs.drop 12) = .error (.domException name) →
      name ≠ "OperationError" → decrypt ct key = .error (.domException name)) ∧
    (∀ bs d, base64ToBuffer ct = some bs →
      subtleDecryptGCM key (bs.take 12) (bs.drop 12) = .ok d →
      decrypt ct key = .ok (textDecodeModel d)) := by
  refine ⟨⟨?_, ?_⟩, ?_, ?_, ?_⟩
  · intro h
    cases hatob : base64ToBuffer ct with
    | none =>
      rw [decrypt_none ct key hatob] at h
      simp at h
    | some bs =>
      rw [decrypt_parse ct key bs hatob] at h
      cases hsub : subtleDecryptGCM key (bs.take 12) (bs.drop 12) with
      | ok d => rw [hsub] at h; simp at h
      | error e =>
        rw [hsub] at h
        by_cases he : e = .domException "OperationError"
        · exact ⟨bs, rfl, he ▸ hsub⟩
        · obtain ⟨name, rfl⟩ := subtleDecryptGCM_error_shape _ _ _ _ hsub
          simp only [JsError.domException.injEq] at he
          simp [he] at h
  · rintro ⟨bs, hatob, hsub⟩
    rw [decrypt_parse ct key bs hatob, hsub]
    simp
  · exact decrypt_none ct key
  · intro bs name hatob hsub hne
    rw [decrypt_parse ct key bs hatob, hsub]
    simp [hne]
  · intro bs d hatob hsub
    rw [decrypt_parse ct key bs hatob, hsub]

/-- C2 witness: malformed base64 input propagates as `InvalidCharacterError`
(not `DecryptionError`) for the key derived from "a". -/
theorem C2_decrypt_error_taxonomy_witness :
    decrypt "!!!" (deriveKey "a") = .error (.domException "InvalidCharacterError") :=
  (C2_decrypt_error_taxonomy "!!!" (deriveKey "a")).2.1 (by decide)

/-- C5: `deriveKey` is deterministic — the salt is the SHA-256 digest of the
UTF-8 password (not random), fed to PBKDF2 with 100000 iterations and SHA-256
producing a 256-bit (32-byte) AES-GCM key — so two calls with the same
password agree, and a payload encrypted under one derived instance decrypts
under the other. -/
theorem C5_deriveKey_deterministic (p s : String) (iv : List Nat)
    (h12 : iv.length = 12) (hbiv : ∀ b ∈ iv, b < 256) :
    deriveKey p = deriveKey p ∧
    (deriveKey p).bytes =
      pbkdf2Model (utf8Encode p) (sha256Model (utf8Encode p)) 100000 32 ∧
    (deriveKey p).alg = "AES-GCM" ∧
    (deriveKey p).bytes.length = 32 ∧
    (∃ ct, encrypt s (deriveKey p) iv = .ok ct ∧ decrypt ct (deriveKey p) = .ok s) := by
  refine ⟨rfl, rfl, rfl, ?_, ?_⟩
  · show (pbkdf2Model (utf8Encode p) (sha256Model (utf8Encode p)) 100000 32).length = 32
    rw [pbkdf2Model, bytesOfHash_length]
  · obtain ⟨he, hd⟩ := encrypt_decrypt_ok s (deriveKey p) iv rfl
      (by simp [deriveKey]) (by simp [deriveKey]) h12 hbiv
    exact ⟨_, he, hd⟩

/-- C5 witness at password "pw", plaintext "secret", nonce `[0, …, 11]`. -/
theorem C5_deriveKey_deterministic_witness :
    deriveKey "pw" = deriveKey "pw" ∧
    (deriveKey "pw").bytes =
      pbkdf2Model (utf8Encode "pw") (sha256Model (utf8Encode "pw")) 100000 32 ∧
    (deriveKey "pw").alg = "AES-GCM" ∧
    (deriveKey "pw").bytes.length = 32 ∧
    (∃ ct, encrypt "secret" (deriveKey "pw") (List.range 12) = .ok ct ∧
      decrypt ct (deriveKey "pw") = .ok "secret") :=
  C5_deriveKey_deterministic "pw" "secret" (List.range 12) (by decide) (by decide)

/-- C8: the string returned by `encrypt` is the base64 encoding of exactly the
12-byte nonce followed by the ciphertext-plus-tag of the UTF-8 plaintext (the
tag being 16 bytes and the ciphertext as long as the UTF-8 plaintext), and
`decrypt` parses any successfully decoded input by taking the first 12 bytes
as the nonce and the rest as ciphertext-plus-tag. -/
theorem C8_wire_format (s : String) (key : CryptoKeyModel) (iv : List Nat)
    (halg : key.alg = "AES-GCM") (henc : "encrypt" ∈ key.usages)
    (h12 : iv.length = 12) (hbiv : ∀ b ∈ iv, b < 256) :
    ∃ payload,
      encrypt s key iv = .ok (bufferToBase64 (iv ++ payload)) ∧
      payload = xorKs key iv 0 (utf8Encode s) ++
        gcmTag key iv (xorKs key iv 0 (utf8Encode s)) ∧
      (gcmTag key iv (xorKs key iv 0 (utf8Encode s))).length = 16 ∧
      (xorKs key iv 0 (utf8Encode s)).length = (utf8Encode s).length ∧
      atobModel (bufferToBase64 (iv ++ payload)) = some (iv ++ payload) ∧
      (iv ++ payload).take 12 = iv ∧ (iv ++ payload).drop 12 = payload ∧
      (∀ ct key2 bs, base64ToBuffer ct = some bs →
        decrypt ct key2 =
          match subtleDecryptGCM key2 (bs.take 12) (bs.drop 12) with
          | .error e =>
            if e = .domException "OperationError" then .error .decryptionError
            else .error e
          | .ok d => .ok (textDecodeModel d)) := by
  refine ⟨xorKs key iv 0 (utf8Encode s) ++ gcmTag key iv (xorKs key iv 0 (utf8Encode s)),
    ?_, rfl, ?_, xorKs_length key iv 0 (utf8Encode s),
    atobModel_bufferToBase64 _ (payload_bounds s key iv hbiv), ?_, ?_, ?_⟩
  · unfold encrypt
    simp only [subtleEncryptGCM_ok key iv (utf8Encode s) halg henc]
  · rw [gcmTag, bytesOfHash_length]
  · rw [← h12, List.take_left]
  · rw [← h12, List.drop_left]
  · intro ct key2 bs hsome
    exact decrypt_parse ct key2 bs hsome

/-- C8 witness at plaintext "hi", the key derived from "k", nonce `[0, …, 11]`. -/
theorem C8_wire_format_witness :
    ∃ payload,
      encrypt "hi" (deriveKey "k") (List.range 12) =
        .ok (bufferToBase64 (List.range 12 ++ payload)) ∧
      payload = xorKs (deriveKey "k") (List.range 12) 0 (utf8Encode "hi") ++
        gcmTag (deriveKey "k") (List.range 12)
          (xorKs (deriveKey "k") (List.range 12) 0 (utf8Encode "hi")) ∧
      (gcmTag (deriveKey "k") (List.range 12)
        (xorKs (deriveKey "k") (List.range 12) 0 (utf8Encode "hi"))).length = 16 ∧
      (xorKs (deriveKey "k") (List.range 12) 0 (utf8Encode "hi")).length =
        (utf8Encode "hi").length ∧
      atobModel (bufferToBase64 (List.range 12 ++ payload)) =
        some (List.range 12 ++ payload) ∧
      (List.range 12 ++ payload).take 12 = List.range 12 ∧
      (List.range 12 ++ payload).drop 12 = payload ∧
      (∀ ct key2 bs, base64ToBuffer ct = some bs →
        decrypt ct key2 =
          match subtleDecryptGCM key2 (bs.take 12) (bs.drop 12) with
          | .error e =>
            if e = .domException "OperationError" then .error .decryptionError
            else .error e
          | .ok d => .ok (textDecodeModel d)) :=
  C8_wire_format "hi" (deriveKey "k") (List.range 12) rfl (by decide) (by decide) (by decide)

/-- C9: two calls to `encrypt` with the same plaintext and key draw fresh
random 12-byte nonces; whenever the two nonces differ the two produced
ciphertext strings differ, and each decrypts back to the plaintext. -/
theorem C9_nonce_freshness (s : String) (key : CryptoKeyModel) (iv1 iv2 : List Nat)
    (halg : key.alg = "AES-GCM") (henc : "encrypt" ∈ key.usages)
    (hdec : "decrypt" ∈ key.usages)
    (h1 : iv1.length = 12) (h2 : iv2.length = 12)
    (hb1 : ∀ b ∈ iv1, b < 256) (hb2 : ∀ b ∈ iv2, b < 256) (hne : iv1 ≠ iv2) :
    ∃ c1 c2, encrypt s key iv1 = .ok c1 ∧ encrypt s key iv2 = .ok c2 ∧ c1 ≠ c2 ∧
      decrypt c1 key = .ok s ∧ decrypt c2 key = .ok s := by
  obtain ⟨he1, hd1⟩ := encrypt_decrypt_ok s key iv1 halg henc hdec h1 hb1
  obtain ⟨he2, hd2⟩ := encrypt_decrypt_ok s key iv2 halg henc hdec h2 hb2
  refine ⟨_, _, he1, he2, ?_, hd1, hd2⟩
  intro hcc
  have heq := bufferToBase64_inj _ _ (payload_bounds s key iv1 hb1)
    (payload_bounds s key iv2 hb2) hcc
  apply hne
  have htake := congrArg (List.take 12) heq
  rw [← h1, List.take_left] at htake
  rw [h1, ← h2, List.take_left] at htake
  exact htake

/-- C9 witness: nonces `[0, …, 11]` and `[1, …, 12]` at plaintext "secret"
under the key derived from "pw". -/
theorem C9_nonce_freshness_witness :
    ∃ c1 c2, encrypt "secret" (deriveKey "pw") (List.range 12) = .ok c1 ∧
      encrypt "secret" (deriveKey "pw") ((List.range 12).map (· + 1)) = .ok c2 ∧
      c1 ≠ c2 ∧ decrypt c1 (deriveKey "pw") = .ok "secret" ∧
      decrypt c2 (deriveKey "pw") = .ok "secret" :=
  C9_nonce_freshness "secret" (deriveKey "pw") (List.range 12)
    ((List.range 12).map (· + 1)) rfl (by decide) (by decide) (by decide) (by decide)
    (by decide) (by decide) (by decide)

/-! ### Lemmas: path module -/

theorem string_mk_data (s : String) : String.mk s.data = s := by
  cases s
  rfl

theorem string_data_eq_nil (s : String) : s.data = [] ↔ s = "" := by
  constructor
  · intro h
    have := congrArg String.mk h
    rwa [string_mk_data] at this
  · intro h
    rw [h]

theorem slash_append_ne_empty (t : String) : ("/" ++ t) ≠ ("" : String) := by
  intro h
  have hd := congrArg String.data h
  rw [String.data_append] at hd
  simp at hd

theorem posixSplitPath_no_sep (p : String) (hp : ∀ c ∈ p.data, c ≠ '/') :
    posixSplitPath p = ["", "", String.mk p.data, String.mk (segExt p.data)] := by
  unfold posixSplitPath
  have hhead : ¬ (p.data.head? = some '/') := by
    cases hd : p.data with
    | nil => simp
    | cons c t =>
      simp only [List.head?_cons, Option.some.injEq]
      exact hp c (by rw [hd]; simp)
  simp only [if_neg hhead]
  have h1 : dropTrailingSlashes p.data = p.data := by
    unfold dropTrailingSlashes
    have h2 : p.data.reverse.dropWhile (· = '/') = p.data.reverse := by
      cases hr : p.data.reverse with
      | nil => rfl
      | cons c t =>
        rw [List.dropWhile_cons]
        have hc : c ∈ p.data := by
          rw [← List.mem_reverse, hr]
          simp
        simp [hp c hc]
    rw [h2, List.reverse_reverse]
  simp only [h1]
  have h2 : p.data.reverse.dropWhile (fun c => decide (c ≠ '/')) = [] :=
    List.dropWhile_eq_nil_iff.mpr
      (fun x hx => by simp [hp x (List.mem_reverse.mp hx)])
  have h3 : p.data.reverse.takeWhile (fun c => decide (c ≠ '/')) = p.data.reverse := by
    rw [List.takeWhile_eq_self_iff.mpr]
    intro x hx
    simp [hp x (List.mem_reverse.mp hx)]
  simp only [splitLastSlash, h2, h3, List.reverse_nil, List.reverse_reverse]

/-- C7: `dirname` splits the path with the POSIX convention of `splitPathRe`
into root, dir and basename, returns `.` when root and dir are both empty and
otherwise root plus dir with dir's trailing separator stripped; in particular
it returns `.` on every path without a separator, `/` on `"/x"`, and
`"/a/b"` on `"/a/b/c.md"`. -/
theorem C7_dirname_posix (po : PathOperations) :
    (∀ p : String, (∀ c ∈ p.data, c ≠ '/') → po.dirname p = ".") ∧
    po.dirname "/x" = "/" ∧
    po.dirname "/a/b/c.md" = "/a/b" ∧
    (∀ p : String, po.dirname p =
      (if (posixSplitPath p).getD 0 "" = "" ∧ (posixSplitPath p).getD 1 "" = "" then "."
       else (posixSplitPath p).getD 0 "" ++
         (if (posixSplitPath p).getD 1 "" ≠ "" then
            String.mk ((posixSplitPath p).getD 1 "").data.dropLast
          else (posixSplitPath p).getD 1 ""))) := by
  refine ⟨?_, rfl, rfl, fun p => rfl⟩
  intro p hp
  unfold PathOperations.dirname
  rw [posixSplitPath_no_sep p hp]
  rfl

/-- C7 witness: the no-separator case at the concrete path "foo". -/
theorem C7_dirname_posix_witness : (PathOperations.mk "/").dirname "foo" = "." :=
  (C7_dirname_posix (PathOperations.mk "/")).1 "foo" (by decide)

theorem resolveScan_absolute :
    ∀ (items : List String) (acc : String),
      (∃ p ∈ items, p ≠ "" ∧ headIsSlash p = true) →
      (resolveScan items acc).2 = true := by
  intro items
  induction items with
  | nil =>
    rintro acc ⟨p, hp, _⟩
    simp at hp
  | cons q rest ih =>
    rintro acc ⟨p, hp, hpne, hpabs⟩
    by_cases hq : q = ""
    · subst hq
      rw [resolveScan, if_pos rfl]
      apply ih
      rcases List.mem_cons.mp hp with h | h
      · exact absurd h hpne
      · exact ⟨p, h, hpne, hpabs⟩
    · rw [resolveScan, if_neg hq]
      by_cases hqa : headIsSlash q = true
      · rw [if_pos hqa]
      · rw [if_neg hqa]
        apply ih
        rcases List.mem_cons.mp hp with h | h
        · exact absurd (h ▸ hpabs) hqa
        · exact ⟨p, h, hpne, hpabs⟩

/-- C10: for the `PathOperations` instance constructed with working directory
`"/"` (the only instance the markdown module creates), `resolve` returns an
absolute path for every argument list: the scan always reaches the implicit
working-directory segment `"/"` when no argument is absolute, so this instance
never produces a relative result. -/
theorem C10_root_instance_always_absolute (paths : List String) :
    ∃ rest : String,
      (PathOperations.mk "/").resolve paths = "/" ++ rest ∧
      ((PathOperations.mk "/").resolve paths).data.head? = some '/' ∧
      (PathOperations.mk "/").isAbsolute ((PathOperations.mk "/").resolve paths) = true := by
  have habs : (resolveScan (paths.reverse ++ ["/"]) "").2 = true :=
    resolveScan_absolute _ _ ⟨"/", by simp, by decide, by decide⟩
  have hres : (PathOperations.mk "/").resolve paths =
      "/" ++ joinSlash (normalizeArray
        (jsSplitSlash (resolveScan (paths.reverse ++ ["/"]) "").1) false) := by
    unfold PathOperations.resolve
    simp only [habs, Bool.not_true, if_true]
    rw [if_neg (slash_append_ne_empty _)]
  refine ⟨_, hres, ?_, ?_⟩
  · rw [hres, String.data_append]
    rfl
  · unfold PathOperations.isAbsolute headIsSlash
    rw [hres, String.data_append]
    rfl

theorem foldl_invariant {α β : Type} (step : β → α → β) (P : β → Prop)
    (hstep : ∀ b a, P b → P (step b a)) :
    ∀ (l : List α) (b : β), P b → P (l.foldl step b) := by
  intro l
  induction l with
  | nil => intro b hb; simpa using hb
  | cons a t ih =>
    intro b hb
    rw [List.foldl_cons]
    exact ih _ (hstep b a hb)

theorem getLast?_some_of_ne_nil {α : Type} :
    ∀ (l : List α), l ≠ [] → ∃ x, l.getLast? = some x ∧ x ∈ l := by
  intro l
  induction l with
  | nil => intro h; exact absurd rfl h
  | cons a t ih =>
    intro _
    by_cases ht : t = []
    · subst ht
      exact ⟨a, by simp, by simp⟩
    · obtain ⟨x, hx1, hx2⟩ := ih ht
      refine ⟨x, ?_, by simp [hx2]⟩
      rw [show a :: t = [a] ++ t from rfl, List.getLast?_append, hx1]
      rfl

theorem normalizeStep_keeps_nonempty (allow : Bool) (res : List String) (p : String)
    (h : ∀ s ∈ res, s ≠ "" ∧ s ≠ ".") :
    ∀ s ∈ normalizeStep allow res p, s ≠ "" ∧ s ≠ "." := by
  unfold normalizeStep
  split_ifs with h1 h2 h3 h4
  · exact h
  · exact fun s hs => h s (List.dropLast_subset _ hs)
  · intro s hs
    rcases List.mem_append.mp hs with hh | hh
    · exact h s hh
    · simp only [List.mem_singleton] at hh
      subst hh
      exact ⟨by decide, by decide⟩
  · exact h
  · intro s hs
    rcases List.mem_append.mp hs with hh | hh
    · exact h s hh
    · simp only [List.mem_singleton] at hh
      subst hh
      push_neg at h1
      exact h1

theorem normalizeStep_false_no_dd (res : List String) (p : String)
    (h : ".." ∉ res) : ".." ∉ normalizeStep false res p := by
  unfold normalizeStep
  split_ifs with h1 h2 h3 h4
  · exact h
  · exact fun hx => h (List.dropLast_subset _ hx)
  · simp at h4
  · exact h
  · intro hx
    rcases List.mem_append.mp hx with hh | hh
    · exact h hh
    · simp only [List.mem_singleton] at hh
      exact h2 hh.symm

theorem normalizeStep_true_dd_prefix (res : List String) (p : String)
    (h : ∃ k rest, res = List.replicate k ".." ++ rest ∧ ".." ∉ rest) :
    ∃ k rest, normalizeStep true res p = List.replicate k ".." ++ rest ∧ ".." ∉ rest := by
  obtain ⟨k, rest, hres, hrest⟩ := h
  unfold normalizeStep
  split_ifs with h1 h2 h3 h4
  · exact ⟨k, rest, hres, hrest⟩
  · subst hres
    by_cases hrn : rest = []
    · subst hrn
      exfalso
      have hk : k ≠ 0 := by
        intro h0
        subst h0
        simp at h3
      apply h3.2
      rw [List.append_nil, List.getLast?_replicate]
      simp [hk]
    · refine ⟨k, rest.dropLast, ?_, fun hx => hrest (List.dropLast_subset _ hx)⟩
      rw [List.dropLast_append_of_ne_nil _ hrn]
  · subst hres
    by_cases hrn : rest = []
    · subst hrn
      refine ⟨k + 1, [], ?_, by simp⟩
      rw [List.append_nil, List.append_nil, List.replicate_succ']
    · exfalso
      apply h3
      obtain ⟨x, hx1, hx2⟩ := getLast?_some_of_ne_nil rest hrn
      constructor
      · simp [hrn]
      · rw [List.getLast?_append, hx1]
        intro hco
        simp only [Option.or_some, Option.some.injEq] at hco
        exact hrest (hco ▸ hx2)
  · exact absurd rfl h4
  · subst hres
    refine ⟨k, rest ++ [p], by rw [List.append_assoc], ?_⟩
    intro hx
    rcases List.mem_append.mp hx with hh | hh
    · exact hrest hh
    · simp only [List.mem_singleton] at hh
      exact h2 hh.symm

theorem normalizeArray_nonempty_segments (parts : List String) (allow : Bool) :
    ∀ s ∈ normalizeArray parts allow, s ≠ "" ∧ s ≠ "." :=
  foldl_invariant _ _ (normalizeStep_keeps_nonempty allow) parts []
    (by intro s hs; simp at hs)

theorem normalizeArray_false_no_dd (parts : List String) :
    ".." ∉ normalizeArray parts false :=
  foldl_invariant _ _ normalizeStep_false_no_dd parts [] (by simp)

theorem normalizeArray_true_dd_prefix (parts : List String) :
    ∃ k rest, normalizeArray parts true = List.replicate k ".." ++ rest ∧ ".." ∉ rest :=
  foldl_invariant _ _ normalizeStep_true_dd_prefix parts [] ⟨0, [], rfl, by simp⟩

theorem joinSlash_ne_empty :
    ∀ segs, segs ≠ [] → (∀ s ∈ segs, s ≠ "") → joinSlash segs ≠ "" := by
  intro segs hne hall
  cases segs with
  | nil => exact absurd rfl hne
  | cons s rest =>
    have hs : s ≠ "" := hall s (by simp)
    have hsd : s.data ≠ [] := fun h => hs ((string_data_eq_nil s).mp h)
    cases rest with
    | nil => simpa [joinSlash] using hs
    | cons t ts =>
      show s ++ "/" ++ joinSlash (t :: ts) ≠ ""
      intro h
      have hd := congrArg String.data h
      rw [String.data_append, String.data_append] at hd
      simp at hd

theorem jsSplitSlashGo_slash_free :
    ∀ (rest cur : List Char), '/' ∉ cur →
      ∀ s ∈ jsSplitSlashGo cur rest, '/' ∉ s.data := by
  intro rest
  induction rest with
  | nil =>
    intro cur hcur s hs
    simp only [jsSplitSlashGo, List.mem_singleton] at hs
    subst hs
    exact fun h => hcur (List.mem_reverse.mp h)
  | cons c t ih =>
    intro cur hcur s hs
    rw [jsSplitSlashGo] at hs
    by_cases hc : c = '/'
    · rw [if_pos hc] at hs
      rcases List.mem_cons.mp hs with h | h
      · subst h
        exact fun h => hcur (List.mem_reverse.mp h)
      · exact ih [] (by simp) s h
    · rw [if_neg hc] at hs
      refine ih (c :: cur) ?_ s hs
      intro h
      rcases List.mem_cons.mp h with h | h
      · exact hc h.symm
      · exact hcur h

theorem jsSplitSlash_slash_free (str : String) :
    ∀ s ∈ jsSplitSlash str, '/' ∉ s.data :=
  jsSplitSlashGo_slash_free str.data [] (by simp)

theorem normalizeStep_slash_free (allow : Bool) (res : List String) (p : String)
    (hres : ∀ s ∈ res, '/' ∉ s.data) (hp : '/' ∉ p.data) :
    ∀ s ∈ normalizeStep allow res p, '/' ∉ s.data := by
  unfold normalizeStep
  split_ifs with h1 h2 h3 h4
  · exact hres
  · exact fun s hs => hres s (List.dropLast_subset _ hs)
  · intro s hs
    rcases List.mem_append.mp hs with hh | hh
    · exact hres s hh
    · simp only [List.mem_singleton] at hh
      subst hh
      decide
  · exact hres
  · intro s hs
    rcases List.mem_append.mp hs with hh | hh
    · exact hres s hh
    · simp only [List.mem_singleton] at hh
      subst hh
      exact hp

theorem normalizeArray_slash_free (parts : List String) (allow : Bool)
    (hparts : ∀ p ∈ parts, '/' ∉ p.data) :
    ∀ s ∈ normalizeArray parts allow, '/' ∉ s.data := by
  unfold normalizeArray
  suffices h : ∀ (ps res : List String), (∀ p ∈ ps, '/' ∉ p.data) →
      (∀ s ∈ res, '/' ∉ s.data) →
      ∀ s ∈ ps.foldl (normalizeStep allow) res, '/' ∉ s.data by
    exact h parts [] hparts (by simp)
  intro ps
  induction ps with
  | nil =>
    intro res _ hres
    simpa using hres
  | cons p pt ih =>
    intro res hps hres
    rw [List.foldl_cons]
    exact ih _ (fun q hq => hps q (by simp [hq]))
      (normalizeStep_slash_free allow res p hres (hps p (by simp)))

theorem resolve_eq_abs (po : PathOperations) (paths : List String)
    (h : (resolveScan (paths.reverse ++ [po.cwd]) "").2 = true) :
    po.resolve paths =
      "/" ++ joinSlash (normalizeArray
        (jsSplitSlash (resolveScan (paths.reverse ++ [po.cwd]) "").1) false) := by
  unfold PathOperations.resolve
  simp only [h, Bool.not_true, if_true]
  rw [if_neg (slash_append_ne_empty _)]

theorem string_nil_append (s : String) : "" ++ s = s := rfl

theorem resolve_eq_rel (po : PathOperations) (paths : List String)
    (h : (resolveScan (paths.reverse ++ [po.cwd]) "").2 = false) :
    po.resolve paths =
      (if joinSlash (normalizeArray
          (jsSplitSlash (resolveScan (paths.reverse ++ [po.cwd]) "").1) true) = "" then "."
       else joinSlash (normalizeArray
          (jsSplitSlash (resolveScan (paths.reverse ++ [po.cwd]) "").1) true)) := by
  unfold PathOperations.resolve
  simp only [h, Bool.not_false, Bool.false_eq_true, reduceIte]
  rw [string_nil_append]

/-- C4: for every working directory and argument list the output of `resolve`
is `.`; or `/` followed by slash-joined segments that are non-empty, not `.`,
slash-free and never `..` (above-root `..` is dropped when the result is
absolute); or a non-empty relative slash-join of non-empty, not-`.`,
slash-free segments with its `..` segments preserved as a leading block
(slash-freeness of every segment pins the path's actual segmentation).  In
particular the output is never the empty string. -/
theorem C4_resolve_output_invariant (cwd : String) (paths : List String) :
    (PathOperations.mk cwd).resolve paths ≠ "" ∧
    ((PathOperations.mk cwd).resolve paths = "." ∨
      ∃ segs : List String, (∀ s ∈ segs, s ≠ "" ∧ s ≠ "." ∧ '/' ∉ s.data) ∧
        (((PathOperations.mk cwd).resolve paths = "/" ++ joinSlash segs ∧ ".." ∉ segs) ∨
         ((PathOperations.mk cwd).resolve paths = joinSlash segs ∧ segs ≠ [] ∧
           ∃ k rest, segs = List.replicate k ".." ++ rest ∧ ".." ∉ rest))) := by
  cases habs : (resolveScan (paths.reverse ++ [(PathOperations.mk cwd).cwd]) "").2 with
  | true =>
    have hres := resolve_eq_abs (PathOperations.mk cwd) paths habs
    refine ⟨by rw [hres]; exact slash_append_ne_empty _, Or.inr ⟨_, ?_,
      Or.inl ⟨hres, normalizeArray_false_no_dd _⟩⟩⟩
    intro s hs
    exact ⟨(normalizeArray_nonempty_segments _ false s hs).1,
      (normalizeArray_nonempty_segments _ false s hs).2,
      normalizeArray_slash_free _ false (jsSplitSlash_slash_free _) s hs⟩
  | false =>
    have hres := resolve_eq_rel (PathOperations.mk cwd) paths habs
    by_cases hnil : normalizeArray
        (jsSplitSlash (resolveScan (paths.reverse ++ [(PathOperations.mk cwd).cwd]) "").1)
        true = []
    · rw [hnil] at hres
      simp only [joinSlash, if_pos] at hres
      exact ⟨by rw [hres]; decide, Or.inl hres⟩
    · have hjoin : joinSlash (normalizeArray
          (jsSplitSlash (resolveScan (paths.reverse ++ [(PathOperations.mk cwd).cwd]) "").1)
          true) ≠ "" :=
        joinSlash_ne_empty _ hnil
          (fun s hs => (normalizeArray_nonempty_segments _ true s hs).1)
      rw [if_neg hjoin] at hres
      refine ⟨by rw [hres]; exact hjoin, Or.inr ⟨_, ?_,
        Or.inr ⟨hres, hnil, normalizeArray_true_dd_prefix _⟩⟩⟩
      intro s hs
      exact ⟨(normalizeArray_nonempty_segments _ true s hs).1,
        (normalizeArray_nonempty_segments _ true s hs).2,
        normalizeArray_slash_free _ true (jsSplitSlash_slash_free _) s hs⟩

theorem normalizeStep_reverse (allow : Bool) (acc : List String) (p : String) :
    (normalizeStep allow acc p).reverse = normalizeSpecStep allow acc.reverse p := by
  unfold normalizeStep normalizeSpecStep
  by_cases h1 : p = "" ∨ p = "."
  · rw [if_pos h1, if_pos h1]
  rw [if_neg h1, if_neg h1]
  by_cases h2 : p = ".."
  · rw [if_pos h2, if_pos h2]
    rcases hrev : acc.reverse with _ | ⟨q, qs⟩
    · have hacc : acc = [] := List.reverse_eq_nil_iff.mp hrev
      subst hacc
      simp only [ne_eq, not_true_eq_false, false_and, if_false]
      by_cases hal : allow
      · rw [if_pos hal, if_pos hal]
        rfl
      · rw [if_neg hal, if_neg hal]
        rfl
    · have hacc : acc = qs.reverse ++ [q] := by
        have := congrArg List.reverse hrev
        simpa using this
      have hlast : acc.getLast? = some q := by
        rw [hacc, List.getLast?_concat]
      have hdrop : acc.dropLast = qs.reverse := by
        rw [hacc, List.dropLast_concat]
      simp only []
      by_cases hq : q = ".."
      · rw [if_neg (not_not_intro hq)]
        rw [if_neg (by rw [hlast, hq]; simp)]
        by_cases hal : allow
        · rw [if_pos hal, if_pos hal, List.reverse_append]
          simp [hrev, hq]
        · rw [if_neg hal, if_neg hal, hrev]
      · rw [if_pos hq]
        rw [if_pos ⟨by rw [hacc]; simp, by rw [hlast]; simpa using hq⟩]
        rw [hdrop, List.reverse_reverse]
  · rw [if_neg h2, if_neg h2, List.reverse_append]
    rfl

theorem normalizeSpecAux_foldl (allow : Bool) :
    ∀ (parts acc : List String),
      parts.foldl (normalizeStep allow) acc = normalizeSpecAux allow acc.reverse parts := by
  intro parts
  induction parts with
  | nil =>
    intro acc
    simp [normalizeSpecAux]
  | cons p ps ih =>
    intro acc
    rw [List.foldl_cons, ih (normalizeStep allow acc p), normalizeSpecAux,
      normalizeStep_reverse]

theorem normalizeSpec_eq (parts : List String) (allow : Bool) :
    normalizeSpec parts allow = normalizeArray parts allow := by
  unfold normalizeSpec normalizeArray
  rw [normalizeSpecAux_foldl allow parts []]
  rfl

theorem resolveScan_eq_spec :
    ∀ (items : List String) (acc : String),
      resolveScan items acc =
        ((scanSpec items).foldl (fun a p => p ++ "/" ++ a) acc,
         match (scanSpec items).getLast? with
         | some p => headIsSlash p
         | none => false) := by
  intro items
  induction items with
  | nil => intro acc; rfl
  | cons q rest ih =>
    intro acc
    rw [resolveScan, scanSpec]
    by_cases hq : q = ""
    · simp only [if_pos hq]
      exact ih acc
    · simp only [if_neg hq]
      by_cases hqa : headIsSlash q = true
      · simp only [if_pos hqa]
        simp [hqa]
      · simp only [if_neg hqa]
        rw [ih (q ++ "/" ++ acc)]
        cases hS : scanSpec rest with
        | nil =>
          simp only [List.foldl_nil, List.foldl_cons, List.getLast?_nil,
            List.getLast?_singleton]
          rw [Bool.not_eq_true] at hqa
          rw [hqa]
        | cons x xs =>
          simp only [List.foldl_cons, List.getLast?_cons_cons]

theorem resolveSpec_eq (cwd : String) (paths : List String) :
    resolveSpec cwd paths = (PathOperations.mk cwd).resolve paths := by
  unfold resolveSpec PathOperations.resolve
  rw [List.reverse_cons, resolveScan_eq_spec (paths.reverse ++ [cwd]) ""]
  simp only [normalizeSpec_eq]

/-- C3: `resolve` implements the specification's resolution algorithm (scan
segments last to first, prepend each non-empty segment, stop at the first
absolute segment or after the implicit working-directory segment, then
normalize dropping empty and `.` segments and collapsing `..`, with
`allowAboveRoot` exactly when no absolute segment was seen); in particular
`resolve("/a/b", "../c")` is `"/a/c"` under every working directory,
`resolve("a", "b", "../c")` is `"a/c"` and `resolve()` is `"."` under the
empty working directory. -/
theorem C3_resolve_spec_and_examples :
    (∀ (cwd : String) (paths : List String),
      resolveSpec cwd paths = (PathOperations.mk cwd).resolve paths) ∧
    (∀ cwd : String, (PathOperations.mk cwd).resolve ["/a/b", "../c"] = "/a/c") ∧
    (PathOperations.mk "").resolve ["a", "b", "../c"] = "a/c" ∧
    (PathOperations.mk "").resolve [] = "." := by
  refine ⟨resolveSpec_eq, fun cwd => rfl, by decide, by decide⟩

theorem dropWhile_empty_eq_drop :
    ∀ l : List String,
      l.dropWhile (fun s => s == "") = l.drop (l.findIdx (fun s => s != "")) := by
  intro l
  induction l with
  | nil => rfl
  | cons a t ih =>
    rw [List.dropWhile_cons, List.findIdx_cons]
    by_cases ha : a = ""
    · subst ha
      have hb : (("" : String) == "") = true := rfl
      have hbn : (("" : String) != "") = false := rfl
      rw [if_pos hb, hbn]
      simp only [cond_false]
      rw [ih, List.drop_succ_cons]
    · have h1 : (a == "") = false := by simpa using ha
      have h2 : (a != "") = true := by simpa using ha
      rw [h1, h2]
      simp

theorem trimArray_eq_trimSpec (arr : List String) : trimArray arr = trimSpec arr := by
  unfold trimArray trimSpec
  by_cases hall : arr.findIdx (fun s => s != "") = arr.length
  · rw [if_pos hall]
    have h1 : arr.dropWhile (fun s => s == "") = [] := by
      rw [List.dropWhile_eq_nil_iff]
      intro x hx
      have h2 := List.findIdx_eq_length.mp hall x hx
      simpa using h2
    rw [h1]
    rfl
  · rw [if_neg hall]
    have hlt : arr.findIdx (fun s => s != "") < arr.length :=
      lt_of_le_of_ne (List.findIdx_le_length _) hall
    rw [dropWhile_empty_eq_drop arr, dropWhile_empty_eq_drop]
    have hsplit : arr.reverse =
        (arr.drop (arr.findIdx (fun s => s != ""))).reverse ++
        (arr.take (arr.findIdx (fun s => s != ""))).reverse := by
      conv_lhs => rw [← List.take_append_drop (arr.findIdx (fun s => s != "")) arr]
      rw [List.reverse_append]
    have hidx : (arr.drop (arr.findIdx (fun s => s != ""))).reverse.findIdx
        (fun s => s != "") <
        (arr.drop (arr.findIdx (fun s => s != ""))).reverse.length := by
      rw [List.findIdx_lt_length]
      refine ⟨arr[arr.findIdx (fun s => s != "")], ?_,
        @List.findIdx_getElem _ (fun s => s != "") arr hlt⟩
      rw [List.mem_reverse, List.drop_eq_getElem_cons hlt]
      exact List.mem_cons_self _ _
    have hrk : arr.reverse.findIdx (fun s => s != "") =
        (arr.drop (arr.findIdx (fun s => s != ""))).reverse.findIdx (fun s => s != "") := by
      rw [hsplit, List.findIdx_append, if_pos hidx]
    rw [← hrk]
    rw [List.reverse_drop]
    simp only [List.length_reverse, List.reverse_reverse]
    rw [List.drop_take]
    congr 1
    rw [List.length_drop]
    omega

theorem firstDiffIdx_eq_commonPrefixLen :
    ∀ a b : List String, firstDiffIdx a b = commonPrefixLen a b := by
  intro a
  induction a with
  | nil => intro b; cases b <;> rfl
  | cons x xs ih =>
    intro b
    cases b with
    | nil => rfl
    | cons y ys =>
      rw [firstDiffIdx, commonPrefixLen]
      by_cases hxy : x = y
      · rw [if_neg (not_not_intro hxy), if_pos hxy, ih]
      · rw [if_pos hxy, if_neg hxy]

theorem firstDiffIdx_self : ∀ l : List String, firstDiffIdx l l = l.length := by
  intro l
  induction l with
  | nil => rfl
  | cons x xs ih =>
    rw [firstDiffIdx, if_neg (not_not_intro rfl), ih]
    rfl

theorem relativeSpec_eq (po : PathOperations) (f t : String) :
    relativeSpec po f t = po.relative f t := by
  unfold relativeSpec PathOperations.relative
  simp only [← trimArray_eq_trimSpec, ← firstDiffIdx_eq_commonPrefixLen]

set_option maxHeartbeats 1600000 in
/-- C6: `relative` resolves both arguments, strips the leading character,
splits on `/`, trims leading and trailing empty segments, and returns one `..`
per `from`-segment past the longest common prefix followed by the remaining
`to`-segments joined by `/` (the specification's algorithm); `relative(p, p)`
is `""` for every path and working directory, and
`relative("/a/b", "/a/c/d")` is `"../c/d"` under every working directory. -/
theorem C6_relative_spec_and_examples :
    (∀ (po : PathOperations) (f t : String), relativeSpec po f t = po.relative f t) ∧
    (∀ (po : PathOperations) (p : String), po.relative p p = "") ∧
    (∀ cwd : String, (PathOperations.mk cwd).relative "/a/b" "/a/c/d" = "../c/d") := by
  refine ⟨relativeSpec_eq, ?_, fun cwd => rfl⟩
  intro po p
  unfold PathOperations.relative
  simp only []
  rw [firstDiffIdx_self, Nat.sub_self, List.drop_length]
  rfl
